import Mathlib

/-!
# Verification of the ed448-rust signing core

A shallow embedding of `src/private_key.rs` (Ed448 / EdDSA signing per RFC 8032)
together with the collaborators it uses.  Bytes are modelled as `Nat` values
(kept below 256 by construction), byte strings as `List Nat`, arbitrary
precision integers as `Nat` (all integers in the code are non-negative), and
fallible operations return `Except`.

The crate-root helpers (`shake256`, `array_to_key`, the error and flag types),
the curve module (`Point`) and `PublicKey` are not part of the visible source;
they are modelled from the specification, and each such definition carries a
doc comment saying so.  The SHAKE256 extendable-output function is an external
collaborator; it is instantiated here by its standard FIPS 202 definition so
that the known-answer vector can be evaluated.
-/

namespace Ed448

/-! ## Byte-string helpers -/

/-- Little-endian interpretation of a byte string as a non-negative integer
(the semantics of `BigInt::from_bytes_le(Sign::Plus, _)`). -/
def bytesToNatLE : List Nat → Nat
  | [] => 0
  | b :: rest => b + 256 * bytesToNatLE rest

/-- Fixed-width little-endian encoding: exactly `k` bytes, zero padded at the
high end (truncating above `256^k`). -/
def natToBytesLE : Nat → Nat → List Nat
  | 0, _ => []
  | k + 1, n => n % 256 :: natToBytesLE k (n / 256)

/-- Minimal little-endian digits of `n` (empty for `n = 0`); the fuel is an
upper bound on the number of digits, `n` itself always suffices. -/
def natDigitsLE : Nat → Nat → List Nat
  | 0, _ => []
  | fuel + 1, n => if n = 0 then [] else n % 256 :: natDigitsLE fuel (n / 256)

/-- Minimal-length little-endian bytes of a non-negative big integer, with
`[0]` for zero: the semantics of `num_bigint::BigUint::to_bytes_le`. -/
def to_bytes_le (n : Nat) : List Nat :=
  if n = 0 then [0] else natDigitsLE n n

/-- Semantics of `Vec::resize_with(n, Default::default)`: truncate to `n`
elements, or pad with zero bytes up to length `n`. -/
def resize (l : List Nat) (n : Nat) : List Nat :=
  (l ++ List.replicate n 0).take n

/-! ## Keccak-f[1600] and SHAKE256 (FIPS 202)

Modelled from the spec: the extendable-output hash function is an external
collaborator ("one concrete instantiation is SHAKE256"); it is given here by
its standard definition.  Lanes are 64-bit words represented as `Nat` values
below `2^64`; the state is a list of 25 lanes ordered `x + 5*y`. -/

/-- Left rotation of a 64-bit lane. -/
def rotl64 (x n : Nat) : Nat :=
  ((x <<< n) ||| (x >>> (64 - n))) &&& (2 ^ 64 - 1)

/-- Bitwise complement of a 64-bit lane. -/
def compl64 (x : Nat) : Nat := x ^^^ (2 ^ 64 - 1)

/-- Rotation offsets of the ρ step, one row per `y`, flattened so that the
index is `x + 5*y`. -/
def rhoOffsets : List Nat :=
  List.flatten
    [[0, 1, 62, 28, 27],
     [36, 44, 6, 55, 20],
     [3, 10, 43, 25, 39],
     [41, 45, 15, 21, 8],
     [18, 2, 61, 56, 14]]

/-- Round constants of the ι step (decimal values of the standard table). -/
def roundConstants : List Nat :=
  [1, 32898, 9223372036854808714,
   9223372039002292224, 32907, 2147483649,
   9223372039002292353, 9223372036854808585, 138,
   136, 2147516425, 2147483658,
   2147516555, 9223372036854775947, 9223372036854808713,
   9223372036854808579, 9223372036854808578, 9223372036854775936,
   32778, 9223372039002259466, 9223372039002292353,
   9223372036854808704, 2147483649, 9223372039002292232]

/-- The θ step. -/
def theta (A : List Nat) : List Nat :=
  let C := (List.range 5).map fun x =>
    A.getD x 0 ^^^ A.getD (x + 5) 0 ^^^ A.getD (x + 10) 0 ^^^
      A.getD (x + 15) 0 ^^^ A.getD (x + 20) 0
  let D := (List.range 5).map fun x =>
    C.getD ((x + 4) % 5) 0 ^^^ rotl64 (C.getD ((x + 1) % 5) 0) 1
  (List.range 25).map fun i => A.getD i 0 ^^^ D.getD (i % 5) 0

/-- Combined ρ and π steps: destination `(x, y)` takes the rotated source lane
`((x + 3*y) % 5, x)`. -/
def rhoPi (A : List Nat) : List Nat :=
  (List.range 25).map fun j =>
    let xd := j % 5
    let yd := j / 5
    let src := (xd + 3 * yd) % 5 + 5 * xd
    rotl64 (A.getD src 0) (rhoOffsets.getD src 0)

/-- The χ step. -/
def chi (A : List Nat) : List Nat :=
  (List.range 25).map fun j =>
    let x := j % 5
    let y := j / 5
    A.getD j 0 ^^^ (compl64 (A.getD ((x + 1) % 5 + 5 * y) 0) &&& A.getD ((x + 2) % 5 + 5 * y) 0)

/-- One Keccak round: θ, ρ, π, χ, ι. -/
def keccakRound (A : List Nat) (rc : Nat) : List Nat :=
  let s := chi (rhoPi (theta A))
  s.set 0 (s.getD 0 0 ^^^ rc)

/-- The Keccak-f[1600] permutation: 24 rounds. -/
def keccakF (A : List Nat) : List Nat :=
  roundConstants.foldl keccakRound A

/-- Group a byte string into 64-bit little-endian lanes (dropping a trailing
incomplete group; callers always pass a multiple of eight bytes). -/
def bytesToLanes : List Nat → List Nat
  | b0 :: b1 :: b2 :: b3 :: b4 :: b5 :: b6 :: b7 :: rest =>
      bytesToNatLE [b0, b1, b2, b3, b4, b5, b6, b7] :: bytesToLanes rest
  | _ => []

/-- Little-endian bytes of the lane list. -/
def lanesToBytes (lanes : List Nat) : List Nat :=
  (lanes.map (natToBytesLE 8)).flatten

/-- XOR a 136-byte rate block into the first 17 lanes of the state. -/
def xorBlock (st : List Nat) (block : List Nat) : List Nat :=
  let lanes := bytesToLanes block
  (List.range 25).map fun i =>
    if i < 17 then st.getD i 0 ^^^ lanes.getD i 0 else st.getD i 0

/-- SHAKE padding (`pad10*1` with the `1111` domain suffix): append `0x1F`,
zero fill, and set the top bit of the final byte of the block. -/
def shakePad (msg : List Nat) : List Nat :=
  let padlen := 136 - msg.length % 136
  if padlen = 1 then msg ++ [0x9F]
  else msg ++ [0x1F] ++ List.replicate (padlen - 2) 0 ++ [0x80]

/-- Absorb a padded message block by block (fuel bounds the block count). -/
def absorb : Nat → List Nat → List Nat → List Nat
  | 0, st, _ => st
  | fuel + 1, st, bytes =>
      if bytes = [] then st
      else absorb fuel (keccakF (xorBlock st (bytes.take 136))) (bytes.drop 136)

/-- Squeeze `fuel` full rate blocks from the state. -/
def squeezeBlocks : Nat → List Nat → List Nat
  | 0, _ => []
  | fuel + 1, st => lanesToBytes (st.take 17) ++ squeezeBlocks fuel (keccakF st)

/-- SHAKE256: absorb `msg` at rate 136 bytes and squeeze `outLen` bytes. -/
def shake256xof (outLen : Nat) (msg : List Nat) : List Nat :=
  let padded := shakePad msg
  let st := absorb (padded.length + 1) (List.replicate 25 0) padded
  (squeezeBlocks (outLen / 136 + 1) st).take outLen

/-! ## The Ed448 curve

Modelled from the spec: the curve module (`Point`) is not part of the visible
source.  The spec fixes the Edwards curve Ed448, its prime-order subgroup
order `L`, the base point, scalar multiplication as the repeated-addition
homomorphism, and the canonical 57-byte encoding (sign bit of the
x-coordinate packed into the top bit, y-coordinate filling the rest).
Projective coordinates with the RFC 8032 §5.2.4 formulas realise the group
operations executably. -/

/-- Field modulus of Ed448, `p = 2^448 - 2^224 - 1`. -/
def p448 : Nat := 2 ^ 448 - 2 ^ 224 - 1

/-- Edwards coefficient `d = -39081` as a canonical residue mod `p`. -/
def dCoef : Nat := p448 - 39081

/-- Order of the prime-order subgroup (`Point::l()` in the source). -/
def lOrder : Nat :=
  2 ^ 446 - 13818066809895115352007386748515426880336692474882178609894547503885

/-- Field addition mod `p`. -/
def fadd (a b : Nat) : Nat := (a + b) % p448

/-- Field subtraction mod `p` (both arguments below `p` by construction). -/
def fsub (a b : Nat) : Nat := (a + (p448 - b)) % p448

/-- Field multiplication mod `p`. -/
def fmul (a b : Nat) : Nat := a * b % p448

/-- Projective point `(X : Y : Z)` on the Ed448 curve, representing the
affine point `(X/Z, Y/Z)`. -/
structure Pt where
  X : Nat
  Y : Nat
  Z : Nat

/-- Neutral element of the curve group. -/
def idPt : Pt := ⟨0, 1, 1⟩

/-- Base point of the prime-order subgroup (RFC 8032 §5.2). -/
def basePt : Pt :=
  ⟨224580040295924300187604334099896036246789641632564134246125461686950415467406032909029192869357953282578032075146446173674602635247710,
   298819210078481492676017930443930673437544040154080242095928241372331506189835876003536878655418784733982303233503462500531545062832660,
   1⟩

/-- Projective Edwards point addition (RFC 8032 §5.2.4). -/
def pointAdd (P Q : Pt) : Pt :=
  let A := fmul P.Z Q.Z
  let B := fmul A A
  let C := fmul P.X Q.X
  let D := fmul P.Y Q.Y
  let E := fmul dCoef (fmul C D)
  let F := fsub B E
  let G := fadd B E
  let H := fmul (fadd P.X P.Y) (fadd Q.X Q.Y)
  ⟨fmul A (fmul F (fsub (fsub H C) D)), fmul A (fmul G (fsub D C)), fmul F G⟩

/-- Projective Edwards point doubling (RFC 8032 §5.2.4). -/
def pointDouble (P : Pt) : Pt :=
  let B := fmul (fadd P.X P.Y) (fadd P.X P.Y)
  let C := fmul P.X P.X
  let D := fmul P.Y P.Y
  let E := fadd C D
  let H := fmul P.Z P.Z
  let J := fsub E (fadd H H)
  ⟨fmul (fsub B E) J, fmul E (fsub C D), fmul E J⟩

/-- Binary double-and-add loop for scalar multiplication; the fuel bounds the
bit length of the scalar. -/
def scalarMulAux : Nat → Nat → Pt → Pt → Pt
  | 0, _, acc, _ => acc
  | fuel + 1, e, acc, addend =>
      if e = 0 then acc
      else
        scalarMulAux fuel (e / 2)
          (if e % 2 = 1 then pointAdd acc addend else acc)
          (pointDouble addend)

/-- Scalar multiplication `e · P` (scalars in this development are below
`2^456`). -/
def scalarMul (e : Nat) (P : Pt) : Pt := scalarMulAux 456 e idPt P

/-- Modular exponentiation by squaring; the fuel bounds the bit length of the
exponent. -/
def powModAux : Nat → Nat → Nat → Nat → Nat
  | 0, _, _, _ => 1
  | fuel + 1, b, e, m =>
      if e = 0 then 1
      else
        let rest := powModAux fuel (b * b % m) (e / 2) m
        if e % 2 = 1 then b * rest % m else rest

/-- Field inverse by Fermat's little theorem, `a^(p-2) mod p`. -/
def fInv (a : Nat) : Nat := powModAux 450 a (p448 - 2) p448

/-- Canonical 57-byte encoding of a point: the y-coordinate little-endian,
with the parity of the x-coordinate packed into the top bit (bit 455). -/
def pointEncode (P : Pt) : List Nat :=
  let zi := fInv P.Z
  let x := fmul P.X zi
  let y := fmul P.Y zi
  natToBytesLE 57 (y + x % 2 * 2 ^ 455)

/-- Decidable equality for `Except` results, by cases. -/
instance {e a : Type} [DecidableEq e] [DecidableEq a] : DecidableEq (Except e a) := fun x y =>
  match x, y with
  | Except.ok u, Except.ok v =>
      match decEq u v with
      | isTrue h => isTrue (congrArg Except.ok h)
      | isFalse h => isFalse fun hh => h (Except.ok.inj hh)
  | Except.error u, Except.error v =>
      match decEq u v with
      | isTrue h => isTrue (congrArg Except.error h)
      | isFalse h => isFalse fun hh => h (Except.error.inj hh)
  | Except.ok _, Except.error _ => isFalse fun hh => Except.noConfusion hh
  | Except.error _, Except.ok _ => isFalse fun hh => Except.noConfusion hh

/-! ## Crate-root items

Modelled from the spec: `KEY_LENGTH`, `SIG_LENGTH`, the error and pre-hash
flag types, the `array_to_key` slice-to-array helper and the dom4-framed
`shake256` adapter live in the crate root, outside the visible source. -/

/-- Length in bytes of keys (57). -/
def KEY_LENGTH : Nat := 57

/-- Length in bytes of signatures (114). -/
def SIG_LENGTH : Nat := 114

/-- Errors of the crate surfaced by the claims. -/
inductive Ed448Error where
  | ContextTooLong
  | WrongKeyLength
deriving DecidableEq

/-- Pre-hash flag selecting between Ed448 and Ed448ph. -/
inductive PreHash where
  | False
  | True
deriving DecidableEq

/-- Byte value of the pre-hash flag inside the dom4 framing. -/
def phByte : PreHash → Nat
  | PreHash.False => 0
  | PreHash.True => 1

/-- Modelled from the spec: `array_to_key` converts a 57-byte slice into a
fixed 57-byte array without changing its contents; on byte strings it is the
identity (every call site passes exactly 57 bytes). -/
def array_to_key (l : List Nat) : List Nat := l

/-- ASCII bytes of the protocol label "SigEd448". -/
def sigEd448Label : List Nat := [0x53, 0x69, 0x67, 0x45, 0x64, 0x34, 0x34, 0x38]

/-- Modelled from the spec: the crate-root `shake256` Hash Adapter.  It
absorbs the label, the pre-hash flag byte, the context length byte, the
context, then all fragments in order, and squeezes a 114-byte digest (the
output length RFC 8032 fixes for the Ed448 nonce and challenge hashes; it is
pinned by the known-answer doc-test of `sign` in the source). -/
def shake256dom (items : List (List Nat)) (ctx : List Nat) (ph : PreHash) : List Nat :=
  shake256xof 114 (sigEd448Label ++ [phByte ph, ctx.length % 256] ++ ctx ++ items.flatten)

/-- Modelled from the spec: `PublicKey::from(a).as_byte()` computes
`A = a·B` and returns its canonical 57-byte encoding. -/
def publicKeyBytes (a : Nat) : List Nat := pointEncode (scalarMul a basePt)

/-! ## PrivateKey (from `src/private_key.rs`) -/

/-- The private key: a 57-byte secret seed. -/
structure PrivateKey where
  key : List Nat
deriving DecidableEq

/-- Access to the raw key bytes (`PrivateKey::as_bytes`). -/
def PrivateKey.as_bytes (k : PrivateKey) : List Nat := k.key

/-- Construction from a raw 57-byte array (`From<PrivateKeyRaw>`). -/
def PrivateKey.fromArray (b : List Nat) : PrivateKey := ⟨b⟩

/-- Key expansion (`PrivateKey::expand`): SHAKE256 digest of the raw key to
114 bytes, split into halves, the first pruned (`s[0] &= 0xFC`; `s[56] = 0`;
`s[55] |= 0x80`), the second returned untouched as the nonce seed. -/
def PrivateKey.expand (k : PrivateKey) : List Nat × List Nat :=
  let h := shake256xof 114 k.as_bytes
  let s := array_to_key (h.take KEY_LENGTH)
  let s := s.set 0 ((s.getD 0 0) &&& 0xFC)
  let s := s.set 56 0
  let s := s.set 55 ((s.getD 55 0) ||| 0x80)
  let seed := array_to_key (h.drop KEY_LENGTH)
  (s, seed)

/-- Message replacement step of `sign_real`: the pre-hash variant replaces
the message by its 64-byte SHAKE256 digest. -/
def prehashMsg (ph : PreHash) (msg : List Nat) : List Nat :=
  match ph with
  | PreHash.False => msg
  | PreHash.True => shake256xof 64 msg

/-- Nonce derivation inside `sign_real`:
`r = LE(shake256([seed, msg], ctx, ph)) mod L`. -/
def nonceR (seed msg ctx : List Nat) (ph : PreHash) : Nat :=
  bytesToNatLE (shake256dom [seed, msg] ctx ph) % lOrder

/-- Challenge derivation inside `sign_real`:
`h = LE(shake256([R, A, msg], ctx, ph)) mod L`. -/
def challengeH (Rb Ab msg ctx : List Nat) (ph : PreHash) : Nat :=
  bytesToNatLE (shake256dom [Rb, Ab, msg] ctx ph) % lOrder

/-- Body of `sign_real` after the context check, on the (possibly
pre-hashed) message: expand the key, derive `r`, `R`, `h`, compute
`S = (r + h·a) mod L`, and concatenate the encodings. -/
def signAssemble (k : PrivateKey) (msg ctx : List Nat) (ph : PreHash) : List Nat :=
  let ex := k.expand
  let a := bytesToNatLE ex.1
  let r := nonceR ex.2 msg ctx ph
  let Rb := pointEncode (scalarMul r basePt)
  let h := challengeH Rb (publicKeyBytes a) msg ctx ph
  let S := (r + h * a) % lOrder
  let Sb := array_to_key (resize (to_bytes_le S) KEY_LENGTH)
  Rb ++ Sb

/-- The shared signing routine (`PrivateKey::sign_real`): default the
context to empty, reject contexts longer than 255 bytes, pre-hash the
message when asked, and assemble the 114-byte signature. -/
def PrivateKey.sign_real (k : PrivateKey) (msg : List Nat) (ctx : Option (List Nat))
    (ph : PreHash) : Except Ed448Error (List Nat) :=
  let ctxb := ctx.getD []
  if 255 < ctxb.length then Except.error Ed448Error.ContextTooLong
  else Except.ok (signAssemble k (prehashMsg ph msg) ctxb ph)

/-- Plain signing (`PrivateKey::sign`). -/
def PrivateKey.sign (k : PrivateKey) (msg : List Nat) (ctx : Option (List Nat)) :
    Except Ed448Error (List Nat) :=
  k.sign_real msg ctx PreHash.False

/-- Pre-hashed signing (`PrivateKey::sign_ph`). -/
def PrivateKey.sign_ph (k : PrivateKey) (msg : List Nat) (ctx : Option (List Nat)) :
    Except Ed448Error (List Nat) :=
  k.sign_real msg ctx PreHash.True

/-- Import from a byte slice (`TryFrom<&[u8]> for PrivateKey`): reject any
length other than `KEY_LENGTH`. -/
def PrivateKey.try_from (b : List Nat) : Except Ed448Error PrivateKey :=
  if b.length ≠ KEY_LENGTH then Except.error Ed448Error.WrongKeyLength
  else Except.ok (PrivateKey.fromArray (array_to_key b))

/-! ## Known-answer vector bytes (RFC 8032 / doc-test of `sign`) -/

def katSeed : List Nat := [0xcd, 0x23, 0xd2, 0x4f, 0x71, 0x42, 0x74, 0xe7, 0x44, 0x34, 0x32, 0x37, 0xb9, 0x32, 0x90, 0xf5, 0x11, 0xf6, 0x42, 0x5f, 0x98, 0xe6, 0x44, 0x59, 0xff, 0x20, 0x3e, 0x89, 0x85, 0x08, 0x3f, 0xfd, 0xf6, 0x05, 0x00, 0x55, 0x3a, 0xbc, 0x0e, 0x05, 0xcd, 0x02, 0x18, 0x4b, 0xdb, 0x89, 0xc4, 0xcc, 0xd6, 0x7e, 0x18, 0x79, 0x51, 0x26, 0x7e, 0xb3, 0x28]

def katMsg : List Nat := [0x0c, 0x3e, 0x54, 0x40, 0x74, 0xec, 0x63, 0xb0, 0x26, 0x5e, 0x0c]

def katSig : List Nat := [0x1f, 0x0a, 0x88, 0x88, 0xce, 0x25, 0xe8, 0xd4, 0x58, 0xa2, 0x11, 0x30, 0x87, 0x9b, 0x84, 0x0a, 0x90, 0x89, 0xd9, 0x99, 0xaa, 0xba, 0x03, 0x9e, 0xaf, 0x3e, 0x3a, 0xfa, 0x09, 0x0a, 0x09, 0xd3, 0x89, 0xdb, 0xa8, 0x2c, 0x4f, 0xf2, 0xae, 0x8a, 0xc5, 0xcd, 0xfb, 0x7c, 0x55, 0xe9, 0x4d, 0x5d, 0x96, 0x1a, 0x29, 0xfe, 0x01, 0x09, 0x94, 0x1e, 0x00, 0xb8, 0xdb, 0xde, 0xea, 0x6d, 0x3b, 0x05, 0x10, 0x68, 0xdf, 0x72, 0x54, 0xc0, 0xcd, 0xc1, 0x29, 0xcb, 0xe6, 0x2d, 0xb2, 0xdc, 0x95, 0x7d, 0xbb, 0x47, 0xb5, 0x1f, 0xd3, 0xf2, 0x13, 0xfb, 0x86, 0x98, 0xf0, 0x64, 0x77, 0x42, 0x50, 0xa5, 0x02, 0x89, 0x61, 0xc9, 0xbf, 0x8f, 0xfd, 0x97, 0x3f, 0xe5, 0xd5, 0xc2, 0x06, 0x49, 0x2b, 0x14, 0x0e, 0x00]

-- pub: [0xdc, 0xea, 0x9e, 0x78, 0xf3, 0x5a, 0x1b, 0xf3, 0x49, 0x9a, 0x83, 0x1b, 0x10, 0xb8, 0x6c, 0x90, 0xaa, 0xc0, 0x1c, 0xd8, 0x4b, 0x67, 0xa0, 0x10, 0x9b, 0x55, 0xa3, 0x6e, 0x93, 0x28, 0xb1, 0xe3, 0x65, 0xfc, 0xe1, 0x61, 0xd7, 0x1c, 0xe7, 0x13, 0x1a, 0x54, 0x3e, 0xa4, 0xcb, 0x5f, 0x7e, 0x9f, 0x1d, 0x8b, 0x00, 0x69, 0x64, 0x47, 0x00, 0x14, 0x00]
-- seed2: [0xc4, 0xea, 0xb0, 0x5d, 0x35, 0x70, 0x07, 0xc6, 0x32, 0xf3, 0xdb, 0xb4, 0x84, 0x89, 0x92, 0x4d, 0x55, 0x2b, 0x08, 0xfe, 0x0c, 0x35, 0x3a, 0x0d, 0x4a, 0x1f, 0x00, 0xac, 0xda, 0x2c, 0x46, 0x3a, 0xfb, 0xea, 0x67, 0xc5, 0xe8, 0xd2, 0x87, 0x7c, 0x5e, 0x3b, 0xc3, 0x97, 0xa6, 0x59, 0x94, 0x9e, 0xf8, 0x02, 0x1e, 0x95, 0x4e, 0x0a, 0x12, 0x27, 0x4e]
-- msg2: [0x03]
-- ctx2: [0x66, 0x6f, 0x6f]
-- sig2: [0xd4, 0xf8, 0xf6, 0x13, 0x17, 0x70, 0xdd, 0x46, 0xf4, 0x08, 0x67, 0xd6, 0xfd, 0x5d, 0x50, 0x55, 0xde, 0x43, 0x54, 0x1f, 0x8c, 0x5e, 0x35, 0xab, 0xbc, 0xd0, 0x01, 0xb3, 0x2a, 0x89, 0xf7, 0xd2, 0x15, 0x1f, 0x76, 0x47, 0xf1, 0x1d, 0x8c, 0xa2, 0xae, 0x27, 0x9f, 0xb8, 0x42, 0xd6, 0x07, 0x21, 0x7f, 0xce, 0x6e, 0x04, 0x2f, 0x68, 0x15, 0xea, 0x00, 0x0c, 0x85, 0x74, 0x1d, 0xe5, 0xc8, 0xda, 0x11, 0x44, 0xa6, 0xa1, 0xab, 0xa7, 0xf9, 0x6d, 0xe4, 0x25, 0x05, 0xd7, 0xa7, 0x29, 0x85, 0x24, 0xfd, 0xa5, 0x38, 0xfc, 0xcb, 0xbb, 0x75, 0x4f, 0x57, 0x8c, 0x1c, 0xad, 0x10, 0xd5, 0x4d, 0x0d, 0x54, 0x28, 0x40, 0x7e, 0x85, 0xdc, 0xbc, 0x98, 0xa4, 0x91, 0x55, 0xc1, 0x37, 0x64, 0xe6, 0x6c, 0x3c, 0x00]

end Ed448

namespace Ed448

/-! ## Length and range lemmas for the byte-string helpers -/

/-- Fixed-width encoding produces exactly `k` bytes. -/
theorem natToBytesLE_length : ∀ (k n : Nat), (natToBytesLE k n).length = k
  | 0, _ => rfl
  | k + 1, n => by simp [natToBytesLE, natToBytesLE_length k]

/-- Fixed-width encoding of zero is all zero bytes. -/
theorem natToBytesLE_zero : ∀ k, natToBytesLE k 0 = List.replicate k 0
  | 0 => rfl
  | k + 1 => by simp [natToBytesLE, natToBytesLE_zero k, List.replicate_succ]

/-- Every byte of a fixed-width encoding is below 256. -/
theorem natToBytesLE_mem_lt : ∀ (k n b : Nat), b ∈ natToBytesLE k n → b < 256
  | 0, _, _, h => by simp [natToBytesLE] at h
  | k + 1, n, b, h => by
      simp only [natToBytesLE, List.mem_cons] at h
      rcases h with h | h
      · exact h ▸ Nat.mod_lt _ (by norm_num)
      · exact natToBytesLE_mem_lt k _ _ h

/-- Decoding inverts the fixed-width encoding below `256 ^ k`. -/
theorem bytesToNatLE_natToBytesLE : ∀ (k n : Nat), n < 256 ^ k →
    bytesToNatLE (natToBytesLE k n) = n
  | 0, n, h => by
      simp [Nat.pow_zero, Nat.lt_one_iff] at h
      simp [natToBytesLE, bytesToNatLE, h]
  | k + 1, n, h => by
      have hdiv : n / 256 < 256 ^ k := by
        rw [Nat.div_lt_iff_lt_mul (by norm_num)]
        calc n < 256 ^ (k + 1) := h
          _ = 256 ^ k * 256 := by ring
      simp [natToBytesLE, bytesToNatLE, bytesToNatLE_natToBytesLE k _ hdiv]
      omega

/-! ## State-shape lemmas for the SHAKE256 sponge -/

/-- One Keccak round always yields a 25-lane state. -/
theorem keccakRound_length (A : List Nat) (rc : Nat) : (keccakRound A rc).length = 25 := by
  simp [keccakRound, chi]

/-- The permutation always yields a 25-lane state. -/
theorem keccakF_length (A : List Nat) : (keccakF A).length = 25 := by
  simp only [keccakF, roundConstants, List.foldl_cons, List.foldl_nil]
  exact keccakRound_length _ _

/-- Absorbing a rate block always yields a 25-lane state. -/
theorem xorBlock_length (st block : List Nat) : (xorBlock st block).length = 25 := by
  simp [xorBlock]

/-- The absorb loop preserves the 25-lane state shape. -/
theorem absorb_length : ∀ (f : Nat) (st bytes : List Nat), st.length = 25 →
    (absorb f st bytes).length = 25
  | 0, _, _, h => h
  | f + 1, st, bytes, h => by
      by_cases hb : bytes = []
      · simpa [absorb, hb] using h
      · simpa [absorb, hb] using absorb_length f _ (bytes.drop 136) (keccakF_length _)

/-- Serialising lanes yields eight bytes per lane. -/
theorem lanesToBytes_length : ∀ l : List Nat, (lanesToBytes l).length = 8 * l.length
  | [] => rfl
  | a :: rest => by
      have ih := lanesToBytes_length rest
      simp only [lanesToBytes, List.map_cons, List.flatten_cons, List.length_append,
        natToBytesLE_length, List.length_cons] at ih ⊢
      omega

/-- Each squeezed block contributes exactly 136 bytes. -/
theorem squeezeBlocks_length : ∀ (f : Nat) (st : List Nat), st.length = 25 →
    (squeezeBlocks f st).length = 136 * f
  | 0, _, _ => rfl
  | f + 1, st, h => by
      have ih := squeezeBlocks_length f (keccakF st) (keccakF_length st)
      have ht : (st.take 17).length = 17 := by rw [List.length_take, h]; omega
      simp only [squeezeBlocks, List.length_append, lanesToBytes_length, ht, ih]
      ring

/-- SHAKE256 produces exactly the requested number of output bytes. -/
theorem shake256xof_length (n : Nat) (m : List Nat) : (shake256xof n m).length = n := by
  have hst : (absorb ((shakePad m).length + 1) (List.replicate 25 0) (shakePad m)).length = 25 :=
    absorb_length _ _ _ (by simp)
  have hs := squeezeBlocks_length (n / 136 + 1) _ hst
  simp only [shake256xof, List.length_take, hs]
  have h1 : n % 136 < 136 := Nat.mod_lt _ (by norm_num)
  have h2 := Nat.div_add_mod n 136
  omega

end Ed448

namespace Ed448

/-! ## Byte-range lemmas for SHAKE256 output -/

/-- Every byte serialised from a lane is below 256. -/
theorem lanesToBytes_mem_lt (l : List Nat) (b : Nat) (hb : b ∈ lanesToBytes l) : b < 256 := by
  simp only [lanesToBytes, List.mem_flatten, List.mem_map] at hb
  obtain ⟨w, ⟨x, _, rfl⟩, hbw⟩ := hb
  exact natToBytesLE_mem_lt 8 x b hbw

/-- Every squeezed byte is below 256. -/
theorem squeezeBlocks_mem_lt : ∀ (f : Nat) (st : List Nat) (b : Nat),
    b ∈ squeezeBlocks f st → b < 256
  | 0, _, _, h => by simp [squeezeBlocks] at h
  | f + 1, st, b, h => by
      simp only [squeezeBlocks, List.mem_append] at h
      rcases h with h | h
      · exact lanesToBytes_mem_lt _ _ h
      · exact squeezeBlocks_mem_lt f _ _ h

/-- Every SHAKE256 output byte is below 256. -/
theorem shake256xof_mem_lt (n : Nat) (m : List Nat) (b : Nat)
    (hb : b ∈ shake256xof n m) : b < 256 :=
  squeezeBlocks_mem_lt _ _ _ (List.take_subset _ _ hb)

/-! ## Minimal-byte encoding and `resize` -/

/-- Digit lists never outgrow the width bound of their value. -/
theorem natDigitsLE_length_le : ∀ (f k n : Nat), n < 256 ^ k → (natDigitsLE f n).length ≤ k
  | 0, _, _, _ => Nat.zero_le _
  | f + 1, k, n, h => by
      by_cases h0 : n = 0
      · simp [natDigitsLE, h0]
      · match k with
        | 0 => exact absurd (Nat.lt_one_iff.mp (by simpa using h)) h0
        | k + 1 =>
          have hdiv : n / 256 < 256 ^ k := by
            rw [Nat.div_lt_iff_lt_mul (by norm_num)]
            calc n < 256 ^ (k + 1) := h
              _ = 256 ^ k * 256 := by ring
          simp only [natDigitsLE, h0, if_false, List.length_cons]
          exact Nat.succ_le_succ (natDigitsLE_length_le f k (n / 256) hdiv)

/-- Digit lists of zero are empty for any fuel. -/
theorem natDigitsLE_zero : ∀ f, natDigitsLE f 0 = []
  | 0 => rfl
  | _ + 1 => by simp [natDigitsLE]

/-- The minimal encoding of a value below `256 ^ k` (with `1 ≤ k`) takes at
most `k` bytes. -/
theorem to_bytes_le_length_le (k n : Nat) (hk : 1 ≤ k) (h : n < 256 ^ k) :
    (to_bytes_le n).length ≤ k := by
  by_cases h0 : n = 0
  · simp [to_bytes_le, h0]; omega
  · simp only [to_bytes_le, h0, if_false]
    exact natDigitsLE_length_le n k n h

/-- Truncating an over-long zero tail is the same as truncating a fitted one. -/
theorem take_append_replicate (k m : Nat) (l : List Nat) (h : k ≤ m) :
    (l ++ List.replicate m 0).take k = (l ++ List.replicate k 0).take k := by
  rw [List.take_append_eq_append_take, List.take_append_eq_append_take,
    List.take_replicate, List.take_replicate]
  have : min (k - l.length) m = min (k - l.length) k := by omega
  rw [this]

/-- `resize` distributes over a leading byte. -/
theorem resize_cons (a : Nat) (l : List Nat) (k : Nat) :
    resize (a :: l) (k + 1) = a :: resize l k := by
  show ((a :: l) ++ List.replicate (k + 1) 0).take (k + 1) = a :: (l ++ List.replicate k 0).take k
  rw [List.cons_append, List.take_succ_cons, take_append_replicate k (k + 1) l (Nat.le_succ k)]

/-- `resize` always yields the requested length. -/
theorem resize_length (l : List Nat) (k : Nat) : (resize l k).length = k := by
  simp only [resize, List.length_take, List.length_append, List.length_replicate]
  omega

/-- When the input already fits, `resize` only zero-pads at the high end. -/
theorem resize_pad (l : List Nat) (k : Nat) (h : l.length ≤ k) :
    resize l k = l ++ List.replicate (k - l.length) 0 := by
  rw [resize, List.take_append_eq_append_take, List.take_of_length_le h, List.take_replicate]
  have : min (k - l.length) k = k - l.length := by omega
  rw [this]

/-- Resizing the digit list to its width bound gives the fixed-width
encoding. -/
theorem resize_natDigits_eq : ∀ (k f n : Nat), n ≤ f → n < 256 ^ k →
    resize (natDigitsLE f n) k = natToBytesLE k n
  | 0, f, n, _, h => by
      have : n = 0 := by simpa [Nat.lt_one_iff] using h
      simp [resize, natToBytesLE]
  | k + 1, f, n, hf, h => by
      by_cases h0 : n = 0
      · subst h0
        rw [natDigitsLE_zero, natToBytesLE_zero]
        simp [resize, List.take_replicate]
      · have hf1 : f ≠ 0 := by omega
        obtain ⟨g, rfl⟩ := Nat.exists_eq_succ_of_ne_zero hf1
        have hlt : n / 256 < n := Nat.div_lt_self (by omega) (by norm_num)
        have hdiv : n / 256 < 256 ^ k := by
          rw [Nat.div_lt_iff_lt_mul (by norm_num)]
          calc n < 256 ^ (k + 1) := h
            _ = 256 ^ k * 256 := by ring
        simp only [natDigitsLE, h0, if_false]
        rw [resize_cons]
        simp only [natToBytesLE]
        rw [resize_natDigits_eq k g (n / 256) (by omega) hdiv]

/-- Resizing the minimal encoding of a value below `256 ^ (k + 1)` to
`k + 1` bytes gives the fixed-width zero-padded encoding. -/
theorem resize_to_bytes_le (k n : Nat) (h : n < 256 ^ (k + 1)) :
    resize (to_bytes_le n) (k + 1) = natToBytesLE (k + 1) n := by
  by_cases h0 : n = 0
  · subst h0
    rw [natToBytesLE_zero]
    show resize (0 :: []) (k + 1) = _
    rw [resize_cons]
    simp [resize, List.take_replicate, List.replicate_succ]
  · simp only [to_bytes_le, h0, if_false]
    exact resize_natDigits_eq (k + 1) n n le_rfl h

/-! ## Constants of the scalar group -/

/-- The group order is positive. -/
theorem lOrder_pos : 0 < lOrder := by decide

/-- The group order fits in 56 bytes. -/
theorem lOrder_lt_256_pow_56 : lOrder < 256 ^ 56 := by decide

/-- The group order is below `2 ^ 447`. -/
theorem lOrder_lt_two_pow_447 : lOrder < 2 ^ 447 := by decide

/-- The group order fits in 57 bytes as well. -/
theorem lOrder_lt_256_pow_57 : lOrder < 256 ^ 57 := by decide

/-! ## Shape lemmas for the signing routine -/

/-- Point encodings are exactly 57 bytes. -/
theorem pointEncode_length (P : Pt) : (pointEncode P).length = KEY_LENGTH := by
  simp [pointEncode, natToBytesLE_length, KEY_LENGTH]

/-- With an acceptable context the routine reaches the assembly step. -/
theorem sign_real_eq_ok (k : PrivateKey) (m : List Nat) (ctx : Option (List Nat)) (ph : PreHash)
    (h : (ctx.getD []).length ≤ 255) :
    k.sign_real m ctx ph =
      Except.ok (signAssemble k (prehashMsg ph m) (ctx.getD []) ph) := by
  have : ¬ 255 < (ctx.getD []).length := by omega
  simp [PrivateKey.sign_real, this]

end Ed448

namespace Ed448

/-! ## Indexing helpers -/

/-- Reading back the byte just written. -/
theorem getD_set_eq (l : List Nat) (i v : Nat) (h : i < l.length) :
    (l.set i v).getD i 0 = v := by
  simp [List.getD_eq_getElem?_getD, List.getElem?_set_self h]

/-- Reading a byte other than the one written. -/
theorem getD_set_ne (l : List Nat) (i j v : Nat) (h : i ≠ j) :
    (l.set i v).getD j 0 = l.getD j 0 := by
  simp [List.getD_eq_getElem?_getD, List.getElem?_set_ne h]

/-- Reading inside the taken range sees the original list. -/
theorem getD_take (l : List Nat) (n j : Nat) (h : j < n) :
    (l.take n).getD j 0 = l.getD j 0 := by
  simp [List.getD_eq_getElem?_getD, List.getElem?_take_of_lt h]

/-- Bytes read at a valid index belong to the list. -/
theorem getD_mem (l : List Nat) (j : Nat) (h : j < l.length) : l.getD j 0 ∈ l := by
  rw [List.getD_eq_getElem?_getD, List.getElem?_eq_getElem h]
  exact List.getElem_mem h

/-! ## The pruning masks, byte by byte -/

/-- Clearing the two least significant bits is flooring to a multiple of 4. -/
theorem land_fc (b : Nat) (hb : b < 256) : b &&& 0xFC = b / 4 * 4 := by
  revert b
  decide!

/-- Setting bit 7 keeps the low seven bits and adds 128. -/
theorem lor_80 (b : Nat) (hb : b < 256) : b ||| 0x80 = b % 128 + 128 := by
  revert b
  decide!

/-- C2: `expand` hashes the raw key to 114 bytes with a bare SHAKE256 (no
dom4 framing), splits the digest in two 57-byte halves, prunes the first
half (low two bits of byte 0 cleared, byte 56 zeroed, bit 7 of byte 55 set,
all other bits kept) and returns the second half untouched as the
nonce-derivation seed. -/
theorem expand_spec (k : PrivateKey) :
    (k.expand).2 = (shake256xof 114 k.as_bytes).drop KEY_LENGTH ∧
    (k.expand).1.length = KEY_LENGTH ∧
    (k.expand).2.length = KEY_LENGTH ∧
    (k.expand).1.getD 0 0 = (shake256xof 114 k.as_bytes).getD 0 0 / 4 * 4 ∧
    (∀ i, 1 ≤ i → i ≤ 54 → (k.expand).1.getD i 0 = (shake256xof 114 k.as_bytes).getD i 0) ∧
    (k.expand).1.getD 55 0 = (shake256xof 114 k.as_bytes).getD 55 0 % 128 + 128 ∧
    (k.expand).1.getD 56 0 = 0 := by
  have hlen : (shake256xof 114 k.as_bytes).length = 114 := shake256xof_length _ _
  have hbyte : ∀ j, j < 114 → (shake256xof 114 k.as_bytes).getD j 0 < 256 := by
    intro j hj
    exact shake256xof_mem_lt _ _ _ (getD_mem _ _ (by omega))
  have ht : ((shake256xof 114 k.as_bytes).take 57).length = 57 := by
    rw [List.length_take, hlen]; omega
  simp only [KEY_LENGTH, PrivateKey.expand, array_to_key]
  refine ⟨trivial, ?_, ?_, ?_, ?_, ?_, ?_⟩
  · simp only [List.length_set]
    exact ht
  · rw [List.length_drop, hlen]
  · rw [getD_set_ne _ _ _ _ (by omega), getD_set_ne _ _ _ _ (by omega),
      getD_set_eq _ _ _ (by rw [ht]; omega), getD_take _ _ _ (by omega)]
    exact land_fc _ (hbyte 0 (by omega))
  · intro i h1 h54
    rw [getD_set_ne _ _ _ _ (by omega), getD_set_ne _ _ _ _ (by omega),
      getD_set_ne _ _ _ _ (by omega), getD_take _ _ _ (by omega)]
  · rw [getD_set_eq _ _ _ (by simp only [List.length_set]; rw [ht]; omega),
      getD_set_ne _ _ _ _ (by omega), getD_set_ne _ _ _ _ (by omega),
      getD_take _ _ _ (by omega)]
    exact lor_80 _ (hbyte 55 (by omega))
  · rw [getD_set_ne _ _ _ _ (by omega),
      getD_set_eq _ _ _ (by simp only [List.length_set]; rw [ht]; omega)]

/-- C2 witness: the pruning facts evaluated on the known-answer seed. -/
theorem expand_spec_witness :
    (PrivateKey.mk katSeed).expand.1.getD 0 0 =
      (shake256xof 114 (PrivateKey.mk katSeed).as_bytes).getD 0 0 / 4 * 4 ∧
    (PrivateKey.mk katSeed).expand.1.getD 1 0 =
      (shake256xof 114 (PrivateKey.mk katSeed).as_bytes).getD 1 0 ∧
    (PrivateKey.mk katSeed).expand.1.getD 56 0 = 0 :=
  ⟨(expand_spec (PrivateKey.mk katSeed)).2.2.2.1,
   (expand_spec (PrivateKey.mk katSeed)).2.2.2.2.1 1 (by decide) (by decide),
   (expand_spec (PrivateKey.mk katSeed)).2.2.2.2.2.2⟩

/-- C7: `try_from` accepts exactly the byte strings of length 57, returning
the key that holds those very bytes, and rejects any other length — in
particular 56 and 58 bytes — with `WrongKeyLength`. -/
theorem try_from_length_check (b : List Nat) :
    (b.length = KEY_LENGTH → PrivateKey.try_from b = Except.ok (PrivateKey.mk b)) ∧
    (b.length ≠ KEY_LENGTH → PrivateKey.try_from b = Except.error Ed448Error.WrongKeyLength) ∧
    PrivateKey.try_from (List.replicate 56 0) = Except.error Ed448Error.WrongKeyLength ∧
    PrivateKey.try_from (List.replicate 58 0) = Except.error Ed448Error.WrongKeyLength := by
  refine ⟨?_, ?_, by decide, by decide⟩
  · intro h
    simp [PrivateKey.try_from, h, PrivateKey.fromArray, array_to_key]
  · intro h
    simp [PrivateKey.try_from, h]

/-- C7 witness: a 57-byte import succeeds, a 56-byte one fails. -/
theorem try_from_length_check_witness :
    PrivateKey.try_from katSeed = Except.ok (PrivateKey.mk katSeed) ∧
    PrivateKey.try_from (List.replicate 56 0) = Except.error Ed448Error.WrongKeyLength :=
  ⟨(try_from_length_check katSeed).1 (by decide),
   (try_from_length_check katSeed).2.2.1⟩

/-- C9: construction from a 57-byte array stores the bytes unchanged —
`as_bytes` returns exactly the imported bytes, with no pruning or
normalization, and `try_from` on the same bytes builds the same key. -/
theorem import_roundtrip (b : List Nat) (h : b.length = KEY_LENGTH) :
    (PrivateKey.fromArray b).as_bytes = b ∧
    PrivateKey.try_from b = Except.ok (PrivateKey.fromArray b) ∧
    (PrivateKey.fromArray b).key = b := by
  refine ⟨rfl, ?_, rfl⟩
  simp [PrivateKey.try_from, h, array_to_key]

/-- C9 witness: the round trip evaluated on the known-answer seed. -/
theorem import_roundtrip_witness :
    (PrivateKey.fromArray katSeed).as_bytes = katSeed ∧
    PrivateKey.try_from katSeed = Except.ok (PrivateKey.fromArray katSeed) ∧
    (PrivateKey.fromArray katSeed).key = katSeed :=
  import_roundtrip katSeed (by decide)

end Ed448

namespace Ed448

/-- C8: signing is deterministic and depends only on the stored key bytes:
any two keys holding the same 57 bytes produce identical results for every
message, context and pre-hash flag (in particular two invocations on the
same key agree), and whenever the context is acceptable the output is a
114-byte signature.  The embedding is pure, mirroring that `sign_real`
takes `&self` and mutates nothing. -/
theorem sign_deterministic (k1 k2 : PrivateKey) (m : List Nat) (ctx : Option (List Nat))
    (ph : PreHash) (hk : k1.as_bytes = k2.as_bytes) :
    k1.sign_real m ctx ph = k2.sign_real m ctx ph ∧
    ((ctx.getD []).length ≤ 255 →
      ∃ sig, k1.sign_real m ctx ph = Except.ok sig ∧ sig.length = SIG_LENGTH) := by
  have hkk : k1 = k2 := by
    cases k1
    cases k2
    simpa [PrivateKey.as_bytes] using hk
  subst hkk
  refine ⟨rfl, fun hc => ⟨signAssemble k1 (prehashMsg ph m) (ctx.getD []) ph,
    sign_real_eq_ok k1 m ctx ph hc, ?_⟩⟩
  have hS : ((nonceR k1.expand.2 (prehashMsg ph m) (ctx.getD []) ph +
      challengeH (pointEncode (scalarMul (nonceR k1.expand.2 (prehashMsg ph m)
        (ctx.getD []) ph) basePt)) (publicKeyBytes (bytesToNatLE k1.expand.1))
        (prehashMsg ph m) (ctx.getD []) ph * bytesToNatLE k1.expand.1) % lOrder) < lOrder :=
    Nat.mod_lt _ lOrder_pos
  show (signAssemble k1 (prehashMsg ph m) (ctx.getD []) ph).length = SIG_LENGTH
  simp only [signAssemble, array_to_key, List.length_append, pointEncode_length,
    resize_length, KEY_LENGTH, SIG_LENGTH]

/-- C8 witness: two invocations on the known-answer inputs agree and yield
114 bytes. -/
theorem sign_deterministic_witness :
    (PrivateKey.mk katSeed).sign_real katMsg none PreHash.False =
      (PrivateKey.mk katSeed).sign_real katMsg none PreHash.False ∧
    ∃ sig, (PrivateKey.mk katSeed).sign_real katMsg none PreHash.False = Except.ok sig ∧
      sig.length = SIG_LENGTH :=
  ⟨(sign_deterministic (PrivateKey.mk katSeed) (PrivateKey.mk katSeed)
      katMsg none PreHash.False rfl).1,
   (sign_deterministic (PrivateKey.mk katSeed) (PrivateKey.mk katSeed)
      katMsg none PreHash.False rfl).2 (by decide)⟩

/-- C5: `sign_ph` is the shared routine with the pre-hash flag set, and with
an acceptable context the routine replaces the message by its 64-byte plain
SHAKE256 digest (no dom4 framing) before the assembly that performs key
expansion, nonce derivation and challenge derivation. -/
theorem sign_ph_prehashes (k : PrivateKey) (m : List Nat) (ctx : Option (List Nat)) :
    k.sign_ph m ctx = k.sign_real m ctx PreHash.True ∧
    prehashMsg PreHash.True m = shake256xof 64 m ∧
    (shake256xof 64 m).length = 64 ∧
    ((ctx.getD []).length ≤ 255 →
      k.sign_real m ctx PreHash.True =
        Except.ok (signAssemble k (shake256xof 64 m) (ctx.getD []) PreHash.True)) :=
  ⟨rfl, rfl, shake256xof_length 64 m, fun hc => sign_real_eq_ok k m ctx PreHash.True hc⟩

/-- C5 witness: the pre-hash route evaluated on the known-answer inputs. -/
theorem sign_ph_prehashes_witness :
    (PrivateKey.mk katSeed).sign_ph katMsg none =
      (PrivateKey.mk katSeed).sign_real katMsg none PreHash.True ∧
    (PrivateKey.mk katSeed).sign_real katMsg none PreHash.True =
      Except.ok (signAssemble (PrivateKey.mk katSeed) (shake256xof 64 katMsg) []
        PreHash.True) :=
  ⟨(sign_ph_prehashes (PrivateKey.mk katSeed) katMsg none).1,
   (sign_ph_prehashes (PrivateKey.mk katSeed) katMsg none).2.2.2 (by decide)⟩

/-- C6: the shared routine (and so `sign` and `sign_ph`) fails with
`ContextTooLong` exactly when an explicit context longer than 255 bytes is
supplied; a context of at most 255 bytes (so in particular exactly 255
bytes) is accepted, and an absent context behaves like the empty one. -/
theorem context_length_check (k : PrivateKey) (m c : List Nat) (ph : PreHash) :
    (k.sign_real m (some c) ph = Except.error Ed448Error.ContextTooLong ↔ 255 < c.length) ∧
    (c.length ≤ 255 →
      k.sign_real m (some c) ph = Except.ok (signAssemble k (prehashMsg ph m) c ph)) ∧
    k.sign_real m none ph = k.sign_real m (some []) ph ∧
    (k.sign m (some c) = Except.error Ed448Error.ContextTooLong ↔ 255 < c.length) ∧
    (k.sign_ph m (some c) = Except.error Ed448Error.ContextTooLong ↔ 255 < c.length) := by
  have base : ∀ ph' : PreHash,
      (k.sign_real m (some c) ph' = Except.error Ed448Error.ContextTooLong ↔ 255 < c.length) := by
    intro ph'
    constructor
    · intro h
      by_contra hc
      rw [sign_real_eq_ok k m (some c) ph' (by simp [Option.getD]; omega)] at h
      exact Except.noConfusion h
    · intro h
      simp [PrivateKey.sign_real, h]
  refine ⟨base ph, ?_, rfl, base PreHash.False, base PreHash.True⟩
  intro hc
  exact sign_real_eq_ok k m (some c) ph (by simpa using hc)

/-- C6 witness: a 255-byte context is accepted, a 256-byte one is rejected. -/
theorem context_length_check_witness :
    (PrivateKey.mk katSeed).sign_real katMsg (some (List.replicate 255 0)) PreHash.False =
      Except.ok (signAssemble (PrivateKey.mk katSeed)
        (prehashMsg PreHash.False katMsg) (List.replicate 255 0) PreHash.False) ∧
    ((PrivateKey.mk katSeed).sign_real katMsg (some (List.replicate 256 0)) PreHash.False =
      Except.error Ed448Error.ContextTooLong ↔ 255 < (List.replicate 256 (0 : Nat)).length) :=
  ⟨(context_length_check (PrivateKey.mk katSeed) katMsg (List.replicate 255 0)
      PreHash.False).2.1 (by simp only [List.length_replicate, le_refl]),
   (context_length_check (PrivateKey.mk katSeed) katMsg (List.replicate 256 0)
      PreHash.False).1⟩

end Ed448

namespace Ed448

/-- Resizing the minimal encoding to 57 bytes below `256 ^ 57` is exactly
the fixed-width zero-padded encoding. -/
theorem resize_to_bytes_le_57 (n : Nat) (h : n < 256 ^ 57) :
    resize (to_bytes_le n) 57 = natToBytesLE 57 n :=
  resize_to_bytes_le 56 n h

/-- C3: with an acceptable context the signature is the 114-byte
concatenation of the 57-byte encoding of `R` with the fixed-width 57-byte
little-endian zero-padded encoding of `S = (r + h·a) mod L`, and `S` is the
canonical residue below `L`. -/
theorem sign_S_encoding (k : PrivateKey) (m : List Nat) (ctx : Option (List Nat))
    (ph : PreHash) (hc : (ctx.getD []).length ≤ 255) :
    let cb := ctx.getD []
    let mm := prehashMsg ph m
    let a := bytesToNatLE k.expand.1
    let r := nonceR k.expand.2 mm cb ph
    let Rb := pointEncode (scalarMul r basePt)
    let h := challengeH Rb (publicKeyBytes a) mm cb ph
    let S := (r + h * a) % lOrder
    k.sign_real m ctx ph = Except.ok (Rb ++ natToBytesLE KEY_LENGTH S) ∧
      S < lOrder ∧
      Rb.length = KEY_LENGTH ∧
      (natToBytesLE KEY_LENGTH S).length = KEY_LENGTH ∧
      (Rb ++ natToBytesLE KEY_LENGTH S).length = SIG_LENGTH := by
  have hS : ∀ x : Nat, x % lOrder < lOrder := fun x => Nat.mod_lt _ lOrder_pos
  simp only [KEY_LENGTH, SIG_LENGTH]
  refine ⟨?_, hS _, pointEncode_length _, natToBytesLE_length _ _, ?_⟩
  · rw [sign_real_eq_ok k m ctx ph hc]
    simp only [signAssemble, array_to_key, KEY_LENGTH]
    rw [resize_to_bytes_le_57 _ (lt_trans (hS _) lOrder_lt_256_pow_57)]
  · simp only [List.length_append, pointEncode_length, natToBytesLE_length, KEY_LENGTH]

/-- C3 witness: the encoding shape instantiated on the known-answer inputs. -/
theorem sign_S_encoding_witness :
    let cb := (none : Option (List Nat)).getD []
    let mm := prehashMsg PreHash.False katMsg
    let a := bytesToNatLE (PrivateKey.mk katSeed).expand.1
    let r := nonceR (PrivateKey.mk katSeed).expand.2 mm cb PreHash.False
    let Rb := pointEncode (scalarMul r basePt)
    let h := challengeH Rb (publicKeyBytes a) mm cb PreHash.False
    let S := (r + h * a) % lOrder
    (PrivateKey.mk katSeed).sign_real katMsg none PreHash.False =
        Except.ok (Rb ++ natToBytesLE KEY_LENGTH S) ∧
      S < lOrder ∧
      Rb.length = KEY_LENGTH ∧
      (natToBytesLE KEY_LENGTH S).length = KEY_LENGTH ∧
      (Rb ++ natToBytesLE KEY_LENGTH S).length = SIG_LENGTH :=
  sign_S_encoding (PrivateKey.mk katSeed) katMsg none PreHash.False (by decide)

/-- C4: the nonce is the little-endian value of the dom4-framed hash of the
seed followed by the (possibly pre-hashed) message, reduced mod `L` to the
canonical residue, and the first 57 signature bytes encode `r·B`. -/
theorem nonce_derivation (k : PrivateKey) (m : List Nat) (ctx : Option (List Nat))
    (ph : PreHash) (hc : (ctx.getD []).length ≤ 255) :
    let cb := ctx.getD []
    let mm := prehashMsg ph m
    let r := nonceR k.expand.2 mm cb ph
    r = bytesToNatLE (shake256dom [k.expand.2, mm] cb ph) % lOrder ∧
    r < lOrder ∧
    ∃ sig, k.sign_real m ctx ph = Except.ok sig ∧
      sig.take KEY_LENGTH = pointEncode (scalarMul r basePt) := by
  have hS : ∀ x : Nat, x % lOrder < lOrder := fun x => Nat.mod_lt _ lOrder_pos
  simp only [KEY_LENGTH]
  refine ⟨rfl, hS _,
    signAssemble k (prehashMsg ph m) (ctx.getD []) ph, sign_real_eq_ok k m ctx ph hc, ?_⟩
  simp only [signAssemble, array_to_key, KEY_LENGTH]
  exact List.take_left' (pointEncode_length _)

/-- C4 witness: the nonce facts instantiated on the known-answer inputs. -/
theorem nonce_derivation_witness :
    let cb := (none : Option (List Nat)).getD []
    let mm := prehashMsg PreHash.False katMsg
    let r := nonceR (PrivateKey.mk katSeed).expand.2 mm cb PreHash.False
    r = bytesToNatLE (shake256dom [(PrivateKey.mk katSeed).expand.2, mm] cb PreHash.False)
        % lOrder ∧
    r < lOrder ∧
    ∃ sig, (PrivateKey.mk katSeed).sign_real katMsg none PreHash.False = Except.ok sig ∧
      sig.take KEY_LENGTH = pointEncode (scalarMul r basePt) :=
  nonce_derivation (PrivateKey.mk katSeed) katMsg none PreHash.False (by decide)

/-- C10: with an acceptable context the assembly is total and in range —
`S` is a canonical residue below `L < 2^447`, its minimal little-endian
encoding takes at most 56 bytes, so the resize to 57 bytes only zero-pads
(never truncates), the concatenation has exactly the 114 bytes the output
buffer requires, and the routine returns it. -/
theorem sign_assembly_safe (k : PrivateKey) (m : List Nat) (ctx : Option (List Nat))
    (ph : PreHash) (hc : (ctx.getD []).length ≤ 255) :
    let cb := ctx.getD []
    let mm := prehashMsg ph m
    let a := bytesToNatLE k.expand.1
    let r := nonceR k.expand.2 mm cb ph
    let Rb := pointEncode (scalarMul r basePt)
    let h := challengeH Rb (publicKeyBytes a) mm cb ph
    let S := (r + h * a) % lOrder
    S < lOrder ∧ lOrder < 2 ^ 447 ∧
    (to_bytes_le S).length ≤ 56 ∧
    resize (to_bytes_le S) KEY_LENGTH =
      to_bytes_le S ++ List.replicate (KEY_LENGTH - (to_bytes_le S).length) 0 ∧
    (Rb ++ array_to_key (resize (to_bytes_le S) KEY_LENGTH)).length = SIG_LENGTH ∧
    k.sign_real m ctx ph =
      Except.ok (Rb ++ array_to_key (resize (to_bytes_le S) KEY_LENGTH)) := by
  have hS : ∀ x : Nat, x % lOrder < lOrder := fun x => Nat.mod_lt _ lOrder_pos
  simp only [KEY_LENGTH, SIG_LENGTH, array_to_key]
  have hlen : ∀ x : Nat, (to_bytes_le (x % lOrder)).length ≤ 56 := fun x =>
    to_bytes_le_length_le 56 _ (by omega) (lt_trans (hS x) lOrder_lt_256_pow_56)
  refine ⟨hS _, lOrder_lt_two_pow_447, hlen _,
    resize_pad _ _ (le_trans (hlen _) (by omega)), ?_, ?_⟩
  · simp only [List.length_append, pointEncode_length, resize_length, KEY_LENGTH]
  · rw [sign_real_eq_ok k m ctx ph hc]
    simp only [signAssemble, array_to_key, KEY_LENGTH]

/-- C10 witness: the totality facts instantiated on the known-answer
inputs. -/
theorem sign_assembly_safe_witness :
    let cb := (none : Option (List Nat)).getD []
    let mm := prehashMsg PreHash.False katMsg
    let a := bytesToNatLE (PrivateKey.mk katSeed).expand.1
    let r := nonceR (PrivateKey.mk katSeed).expand.2 mm cb PreHash.False
    let Rb := pointEncode (scalarMul r basePt)
    let h := challengeH Rb (publicKeyBytes a) mm cb PreHash.False
    let S := (r + h * a) % lOrder
    S < lOrder ∧ lOrder < 2 ^ 447 ∧
    (to_bytes_le S).length ≤ 56 ∧
    resize (to_bytes_le S) KEY_LENGTH =
      to_bytes_le S ++ List.replicate (KEY_LENGTH - (to_bytes_le S).length) 0 ∧
    (Rb ++ array_to_key (resize (to_bytes_le S) KEY_LENGTH)).length = SIG_LENGTH ∧
    (PrivateKey.mk katSeed).sign_real katMsg none PreHash.False =
      Except.ok (Rb ++ array_to_key (resize (to_bytes_le S) KEY_LENGTH)) :=
  sign_assembly_safe (PrivateKey.mk katSeed) katMsg none PreHash.False (by decide)

/-- C1: on the fixed 57-byte seed and the 11-byte message with no context,
`sign` returns `Ok` of exactly the expected 114-byte known-answer
signature. -/
theorem kat_sign_no_context :
    (PrivateKey.mk katSeed).sign katMsg none = Except.ok katSig := by
  decide!

end Ed448
